import Mathlib

/-
Verification of the dockerfile parsing and editing core
(`dockerfile_parse/parser.py`) against its natural-language
specification.  Text is modelled as `List Char`; a file is a
`List (List Char)` of physical lines, each keeping its trailing
newline, exactly as produced by `readlines`.  All inputs of interest
are ASCII, so the ASCII character classes below coincide with the
Python ones on the inputs the theorems quantify over.
-/

namespace DockerfileParse

/-- Python whitespace (the regex class for spaces, and the set used by
`str.strip`, `str.lstrip`, `str.rstrip` and `str.split(None)`), ASCII range. -/
def isPySpace (c : Char) : Bool :=
  c == ' ' || c == '\t' || c == '\n' || c == '\r' || c == Char.ofNat 11 || c == Char.ofNat 12

/-- Regex word characters (ASCII range): letters, digits, underscore. -/
def isWordChar (c : Char) : Bool :=
  c.isAlpha || c.isDigit || c == '_'

/-- Python `str.lstrip()`. -/
def lstrip (s : List Char) : List Char := s.dropWhile isPySpace

/-- Python `str.rstrip()`. -/
def rstrip (s : List Char) : List Char := (s.reverse.dropWhile isPySpace).reverse

/-- The helper `_rstrip_backslash` from the source: right-strip whitespace, then drop one
trailing backslash if present. -/
def rstripBackslash (l : List Char) : List Char :=
  let l' := rstrip l
  if l'.getLast? = some '\\' then l'.dropLast else l'

/-- Whether the continuation regex `^.*\\\s*$` matches the line: some
backslash, with no newline before it and only whitespace after it.
(`$` also matches just before a final newline, but a final newline is
itself whitespace, so this characterization is exact.) -/
def contMatch (s : List Char) : Bool :=
  (List.range s.length).any fun i =>
    s[i]? == some '\\' && (s.take i).all (fun c => !(c == '\n')) &&
      (s.drop (i+1)).all isPySpace

/-- Positions where `$` can match inside the tail `t` of the line: the end of
the string, or just before a single final newline. -/
def dollarOk (t : List Char) (q : Nat) : Bool :=
  q == t.length || (q + 1 == t.length && t.getLast? == some '\n')

/-- Length of the maximal newline-free run of `.*` starting at position `p`. -/
def newlineFreeRun (t : List Char) (p : Nat) : Nat :=
  p + ((t.drop p).takeWhile (fun c => !(c == '\n'))).length

/-- Backtracking search for `(.*)$` starting at position `p`: a greedy `.*`
followed by `$`, trying the longest candidate first. -/
def searchQ (t : List Char) (p : Nat) : Option Nat :=
  let r := newlineFreeRun t p
  (List.range (r - p + 1)).findSome? fun d =>
    let q := r - d
    if dollarOk t q then some q else none

/-- Backtracking search for `\s+(.*)$` on the text `t` following the keyword:
a greedy `\s+` of length at least one, then `(.*)$`; on failure the `\s+` is
shortened, exactly as the regex engine backtracks. Returns the second group. -/
def searchP (t : List Char) : Option (List Char) :=
  let pmax := (t.takeWhile isPySpace).length
  (List.range pmax).findSome? fun d =>
    let p := pmax - d
    (searchQ t p).map fun q => (t.drop p).take (q - p)

/-- The instruction regex `^\s*(\w+)\s+(.*)$` (`re.match`): leading
whitespace, a maximal word (both deterministic because the classes are
disjoint), then `\s+(.*)$`.  Returns the keyword and the second group. -/
def insnMatch (s : List Char) : Option (List Char × List Char) :=
  let s1 := s.dropWhile isPySpace
  let w := s1.takeWhile isWordChar
  if w.isEmpty then none
  else (searchP (s1.dropWhile isWordChar)).map fun g2 => (w, g2)

/-- Python `str.upper()`, ASCII range. -/
def upperStr (s : List Char) : List Char := s.map Char.toUpper

/-- One record of the `structure` property: instruction keyword (upper-cased),
0-based inclusive line span, exact raw content, and the folded value. -/
structure Instr where
  instruction : List Char
  startline : Nat
  endline : Nat
  content : List Char
  value : List Char
deriving DecidableEq, Repr

/-- The instruction opened when, out of continuation, a line matches the
instruction regex: keyword upper-cased, span the current line, value the
second group with one trailing continuation backslash stripped. -/
def openInstr (n : Nat) (l w g2 : List Char) : Instr :=
  ⟨upperStr w, n, n, l, rstripBackslash g2⟩

/-- The accumulator extension performed on a continuation line: raw content
grows by the whole line, the end line advances, and the continuation-stripped
remainder is appended to the value, left-trimmed only if the value is still
empty. -/
def extendInstr (c : Instr) (n : Nat) (l : List Char) : Instr :=
  { c with content := c.content ++ l, endline := n,
           value := if c.value.isEmpty then rstripBackslash (lstrip l)
                    else c.value ++ rstripBackslash l }

/-- The scan loop of the `structure` property.  `n` is the current line
number, `cur` is `some c` exactly when the previous line left the scan in
continuation with accumulator `c` (in the source `in_continuation` is true
only while `current_instruction` was just set or extended; a closed
accumulator is never read again, only replaced).  Returns the emitted
instruction list together with the final accumulator: `some c` means the
input ended while still in continuation, with `c` the dangling instruction. -/
def structGo : Nat → Option Instr → List (List Char) → List Instr × Option Instr
  | _, cur, [] => ([], cur)
  | n, none, l :: rest =>
    match insnMatch l with
    | none => structGo (n+1) none rest
    | some (w, g2) =>
      if contMatch l then structGo (n+1) (some (openInstr n l w g2)) rest
      else
        let p := structGo (n+1) none rest
        (openInstr n l w g2 :: p.1, p.2)
  | n, some c, l :: rest =>
    if contMatch l then structGo (n+1) (some (extendInstr c n l)) rest
    else
      let p := structGo (n+1) none rest
      (extendInstr c n l :: p.1, p.2)

/-- The full scan from the start of the file. -/
def structAux (lines : List (List Char)) : List Instr × Option Instr :=
  structGo 0 none lines

/-- The `structure` property of the parser: the list of instruction records
derived from the raw lines. -/
def structure' (lines : List (List Char)) : List Instr :=
  (structAux lines).1

/-- The Python exception kinds raised by the editing operations.  An
operation returning `Except (PyErr × lines) lines` models the method: an
error value carries the backing line sequence at the moment the exception is
raised, so an unchanged second component states that nothing was written. -/
inductive PyErr
  | valueError
  | typeError
  | keyError
  | indexError
  | assertError
deriving DecidableEq, Repr

instance {ε α : Type} [DecidableEq ε] [DecidableEq α] : DecidableEq (Except ε α) := fun a b =>
  match a, b with
  | .error e1, .error e2 =>
    if h : e1 = e2 then .isTrue (by rw [h]) else .isFalse (fun hh => h (Except.error.inj hh))
  | .error _, .ok _ => .isFalse (fun hh => Except.noConfusion hh)
  | .ok _, .error _ => .isFalse (fun hh => Except.noConfusion hh)
  | .ok a1, .ok a2 =>
    if h : a1 = a2 then .isTrue (by rw [h]) else .isFalse (fun hh => h (Except.ok.inj hh))

/-- Python `del ls[a:b]` on a list (with non-negative indices): removes the
half-open slice, which is empty when `b ≤ a`, and clamps past the end. -/
def delSlice {α : Type} (ls : List α) (a b : Nat) : List α :=
  ls.take a ++ ls.drop (max a b)

/-- Python `ls.insert(i, x)` on a list (with a non-negative index): inserts
before position `i`, appending when `i` is at or past the end. -/
def insertAt {α : Type} (ls : List α) (i : Nat) (x : α) : List α :=
  ls.take i ++ x :: ls.drop i

/-- The splice performed by the editing methods:
`del lines[s:e+1]` followed by `lines.insert(s, content)`. -/
def spliceReplace (ls : List (List Char)) (s e : Nat) (x : List Char) : List (List Char) :=
  insertAt (delSlice ls s (e+1)) s x

/-- The guard `old_value and insn[value] != old_value: continue` of the
modify and delete methods: the instruction is processed when the optional
filter is absent, empty (falsy in Python), or equal to the value. -/
def valueFilterOk (ov : Option (List Char)) (v : List Char) : Bool :=
  match ov with
  | none => true
  | some w => w.isEmpty || v == w

/-- Which instructions `_modify_instruction` (and `_delete_instructions`)
acts on: exact keyword equality plus the optional value filter. -/
def modifyMatch (instruction : List Char) (ov : Option (List Char)) (i : Instr) : Bool :=
  i.instruction == instruction && valueFilterOk ov i.value

/-- The replacement line `"<NAME> <new_value>\n"`. -/
def newLineFor (instruction v : List Char) : List Char :=
  instruction ++ ' ' :: v ++ ['\n']

/-- The method `_modify_instruction`: raises `ValueError` for `LABEL` before touching
anything; otherwise iterates over `self.structure` — evaluated once, from
the original lines — and for every matching instruction splices the single
replacement line over the span recorded in that one derivation, while the
line list accumulates the edits. -/
def modifyInstruction (lines : List (List Char)) (instruction newValue : List Char)
    (oldValue : Option (List Char)) : Except (PyErr × List (List Char)) (List (List Char)) :=
  if instruction = "LABEL".toList then .error (.valueError, lines)
  else .ok ((structure' lines).foldl
    (fun ls i =>
      if modifyMatch instruction oldValue i then
        spliceReplace ls i.startline i.endline (newLineFor instruction newValue)
      else ls) lines)

/-- The whitespace set of the `shlex` lexer (`shlex.whitespace`). -/
def shlexWs (c : Char) : Bool :=
  c == ' ' || c == '\t' || c == '\r' || c == '\n'

/-- States of the posix `shlex` tokenizer in `whitespace_split` mode:
between tokens, inside a word, inside a quote, or right after an escape
character (remembering whether it occurred in a word or inside a quote). -/
inductive SState
  | space
  | word
  | inQuote (q : Char)
  | escWord
  | escQuote (q : Char)

/-- The posix `shlex.split` scan (`whitespace_split`, no comments), one
character at a time.  `tok` is the token accumulated so far, `quoted` is set
once the token saw a quote (so that an empty quoted token is still emitted),
`acc` is the finished-token list.  Whitespace separates tokens; single and
double quotes group; a backslash escapes the next character outside quotes
and, inside double quotes only, escapes a backslash or the closing quote
(otherwise it is kept literally); an unterminated quote or a trailing
escape raises `ValueError`. -/
def shlexGo (st : SState) (tok : List Char) (quoted : Bool) (acc : List (List Char)) :
    List Char → Except PyErr (List (List Char))
  | [] =>
    match st with
    | .space => .ok acc
    | .word => if tok.isEmpty && !quoted then .ok acc else .ok (acc ++ [tok])
    | .inQuote _ => .error .valueError
    | .escWord => .error .valueError
    | .escQuote _ => .error .valueError
  | c :: rest =>
    match st with
    | .space =>
      if shlexWs c then
        if tok.isEmpty && !quoted then shlexGo .space tok quoted acc rest
        else shlexGo .space [] false (acc ++ [tok]) rest
      else if c == '\\' then shlexGo .escWord tok quoted acc rest
      else if c == '\'' || c == '"' then shlexGo (.inQuote c) tok true acc rest
      else shlexGo .word (tok ++ [c]) quoted acc rest
    | .word =>
      if shlexWs c then
        if tok.isEmpty && !quoted then shlexGo .space tok quoted acc rest
        else shlexGo .space [] false (acc ++ [tok]) rest
      else if c == '\'' || c == '"' then shlexGo (.inQuote c) tok true acc rest
      else if c == '\\' then shlexGo .escWord tok quoted acc rest
      else shlexGo .word (tok ++ [c]) quoted acc rest
    | .inQuote q =>
      if c == q then shlexGo .word tok quoted acc rest
      else if c == '\\' && q == '"' then shlexGo (.escQuote q) tok quoted acc rest
      else shlexGo (.inQuote q) (tok ++ [c]) quoted acc rest
    | .escWord => shlexGo .word (tok ++ [c]) quoted acc rest
    | .escQuote q =>
      if !(c == '\\') && !(c == q) then shlexGo (.inQuote q) (tok ++ ['\\', c]) quoted acc rest
      else shlexGo (.inQuote q) (tok ++ [c]) quoted acc rest

/-- The method of the parser wrapping the split on Python 3: plain `shlex.split(string)`. -/
def shlexSplit (s : List Char) : Except PyErr (List (List Char)) :=
  shlexGo .space [] false [] s

/-- Characters `shlex.quote` considers safe: word characters and
`@ % + = : , .` plus slash and dash (ASCII). -/
def shlexSafeChar (c : Char) : Bool :=
  isWordChar c || c == '@' || c == '%' || c == '+' || c == '=' || c == ':' ||
    c == ',' || c == '.' || c == '/' || c == '-'

/-- Python `shlex.quote`: the empty string becomes a pair of single quotes, safe
strings pass through, everything else is wrapped in single quotes with each
embedded single quote rewritten to the five characters of the idiom used to
re-open the quotation around it. -/
def quoteStr (s : List Char) : List Char :=
  if s.isEmpty then ['\'', '\'']
  else if s.all shlexSafeChar then s
  else '\'' :: ((s.map fun c => if c == '\'' then "'\"'\"'".toList else [c]).flatten ++ ['\''])

/-- The two replace calls of the legacy label branch: drop every single and double quote character from the value. -/
def stripQuotes (s : List Char) : List Char :=
  s.filter fun c => !(c == '\'') && !(c == '"')

/-- Python `s.split(None, 1)`: skip leading whitespace; no token gives `[]`; one
token gives `[tok]`; otherwise the token and the untouched remainder after
the following whitespace run. -/
def splitNone1 (s : List Char) : List (List Char) :=
  let s1 := s.dropWhile isPySpace
  if s1.isEmpty then []
  else
    let tok := s1.takeWhile fun c => !(isPySpace c)
    let rest := (s1.dropWhile fun c => !(isPySpace c)).dropWhile isPySpace
    if rest.isEmpty then [tok] else [tok, rest]

/-- Python `token.split` on the first `=`: the part before it, and the part
after it when one exists. -/
def splitEq1 (tok : List Char) : List Char × Option (List Char) :=
  let k := tok.takeWhile fun c => !(c == '=')
  match tok.dropWhile (fun c => !(c == '=')) with
  | [] => (k, none)
  | _ :: tail => (k, some tail)

/-- The key and value read off a split token: the second element when the
split produced one, defaulting to the empty string otherwise. -/
def tokKV (tok : List Char) : List Char × List Char :=
  match splitEq1 tok with
  | (k, none) => (k, [])
  | (k, some v) => (k, v)

/-- Python dict assignment `d[k] = v` on an insertion-ordered dictionary:
overwrite the value in place when the key exists, append otherwise. -/
def dictSet (d : List (List Char × List Char)) (k v : List Char) :
    List (List Char × List Char) :=
  if d.any (fun p => decide (p.1 = k)) then
    d.map fun p => if p.1 = k then (p.1, v) else p
  else d ++ [(k, v)]

/-- Python dict lookup `d[k]` (as an option). -/
def dictGet (d : List (List Char × List Char)) (k : List Char) : Option (List Char) :=
  (d.find? fun p => decide (p.1 = k)).map (·.2)

/-- The pairs contributed by one LABEL instruction in the `labels` getter:
`shlex`-split the value and look at the first token.  No `=` in it selects
the legacy form — quote characters are dropped from the whole value, which
is then split once on whitespace, the missing value defaulting to the empty
string; otherwise every token is split once on its first `=`.  An empty
split list makes `splits[0]` raise `IndexError`, as does an empty
quote-stripped value in the legacy form. -/
def labelPairs (v : List Char) : Except PyErr (List (List Char × List Char)) :=
  match shlexSplit v with
  | .error e => .error e
  | .ok [] => .error .indexError
  | .ok (s0 :: rest) =>
    if !(s0.any fun c => c == '=') then
      match splitNone1 (stripQuotes v) with
      | [] => .error .indexError
      | [k] => .ok [(k, [])]
      | k :: r :: _ => .ok [(k, r)]
    else
      .ok ((s0 :: rest).map tokKV)

/-- The dictionary accumulation of the `labels` getter over the structure
list: every LABEL instruction contributes its pairs in order, assigned into
the dict one by one. -/
def labelsGo : List Instr → List (List Char × List Char) →
    Except PyErr (List (List Char × List Char))
  | [], d => .ok d
  | i :: rest, d =>
    if i.instruction = "LABEL".toList then
      match labelPairs i.value with
      | .error e => .error e
      | .ok ps => labelsGo rest (ps.foldl (fun d p => dictSet d p.1 p.2) d)
    else labelsGo rest d

/-- The `labels` property: the label dictionary derived from the lines. -/
def labelsModel (lines : List (List Char)) : Except PyErr (List (List Char × List Char)) :=
  labelsGo (structure' lines) []

/-- The concatenation, in file order, of the pairs of every LABEL
instruction (before any dictionary merging). -/
def collectGo : List Instr → Except PyErr (List (List Char × List Char))
  | [] => .ok []
  | i :: rest =>
    if i.instruction = "LABEL".toList then
      match labelPairs i.value with
      | .error e => .error e
      | .ok ps =>
        match collectGo rest with
        | .error e => .error e
        | .ok qs => .ok (ps ++ qs)
    else collectGo rest

def collectPairs (lines : List (List Char)) : Except PyErr (List (List Char × List Char)) :=
  collectGo (structure' lines)

/-- The value of the last binding of `k` in a pair list. -/
def lastLookup (ps : List (List Char × List Char)) (k : List Char) : Option (List Char) :=
  (ps.reverse.find? fun p => decide (p.1 = k)).map (·.2)

/-- The method `_delete_instructions`: the line list is read once, then the structure
(derived from the same lines) is walked in reverse order, splicing out the
span of every instruction passing the name and optional value filter; the
flag records whether anything was deleted, and the new lines are written
back only when it is set. -/
def deleteInstructions (lines : List (List Char)) (instruction : List Char)
    (value : Option (List Char)) : List (List Char) × Bool :=
  ((structure' lines).reverse).foldl
    (fun st i =>
      if modifyMatch instruction value i then
        (delSlice st.1 i.startline (i.endline + 1), true)
      else st)
    (lines, false)

/-- Whether line index `idx` lies inside the span of some instruction of
`insns` passing the filter `p`. -/
def coveredBy (p : Instr → Bool) (insns : List Instr) (idx : Nat) : Bool :=
  insns.any fun i => p i && decide (i.startline ≤ idx) && decide (idx ≤ i.endline)

/-- The lines surviving the removal of every filtered instruction span:
positional filtering of `ls`, whose first element has line index `k`. -/
def keepLines (p : Instr → Bool) (insns : List Instr) : Nat → List (List Char) → List (List Char)
  | _, [] => []
  | k, l :: rest =>
    if coveredBy p insns k then keepLines p insns (k+1) rest
    else l :: keepLines p insns (k+1) rest

/-- The argument of the label setters: a dict (an insertion-ordered list of
pairs) or anything that fails the `isinstance(labels, dict)` check. -/
inductive LabelsArg
  | dict (kvs : List (List Char × List Char))
  | notDict

/-- The `labels` setter: a non-dict argument raises `TypeError` before any
mutation; otherwise all LABEL instructions are deleted and one
`LABEL "<key>"="<value>"` line is appended per entry.  (The source appends
with `lines += new_line`, which extends the line *list* with the characters
of the string one by one; the written file content is nevertheless the
intended line, and the model keeps the faithful character-per-element
form.) -/
def setLabels (lines : List (List Char)) (arg : LabelsArg) :
    Except (PyErr × List (List Char)) (List (List Char)) :=
  match arg with
  | .notDict => .error (.typeError, lines)
  | .dict kvs =>
    let ls1 := (deleteInstructions lines ("LABEL".toList) none).1
    .ok (kvs.foldl (fun ls kv =>
      let newLine := "LABEL \"".toList ++ kv.1 ++ "\"=\"".toList ++ kv.2 ++ "\"\n".toList
      ls ++ newLine.map fun c => [c]) ls1)

/-- The candidate found by the scan of `_modify_instruction_label`: the
reconstructed line and the span to splice it over. -/
structure Found where
  content : List Char
  startline : Nat
  endline : Nat
deriving DecidableEq, Repr

/-- Python string join of `xs` with single spaces. -/
def joinSpace (xs : List (List Char)) : List Char := List.intercalate [' '] xs

/-- The line rebuilt in the legacy branch: the LABEL keyword, the key and
the new value joined by single spaces, plus a newline. -/
def legacyContent (w0 val : List Char) : List Char :=
  joinSpace ["LABEL".toList, w0, val] ++ ['\n']

/-- The line rebuilt in the quoted branch: the LABEL keyword and the tokens
(the matching one replaced) joined by single spaces, plus a newline. -/
def quotedContent (splits : List (List Char)) : List Char :=
  joinSpace ("LABEL".toList :: splits) ++ ['\n']

/-- The inner token loop of the quoted branch: find the first token whose
part before `=` equals the key; replace it by
`"=".join(map(quote, words))` with the value substituted.  A matching token
without `=` makes the `words[1] = label_value` assignment raise
`IndexError`. -/
def innerScanGo (key val : List Char) (pre : List (List Char)) :
    List (List Char) → Except PyErr (Option (List (List Char)))
  | [] => .ok none
  | tok :: rest =>
    match splitEq1 tok with
    | (w0, some _) =>
      if w0 = key then .ok (some (pre ++ (quoteStr w0 ++ '=' :: quoteStr val) :: rest))
      else innerScanGo key val (pre ++ [tok]) rest
    | (w0, none) =>
      if w0 = key then .error .indexError
      else innerScanGo key val (pre ++ [tok]) rest

def innerScan (key val : List Char) (splits : List (List Char)) :
    Except PyErr (Option (List (List Char))) :=
  innerScanGo key val [] splits

/-- The candidate scan of `_modify_instruction_label` over the LABEL
instructions in file order.  A legacy-syntax candidate containing the key
records the rebuilt line and stops the scan (the `break` leaves the
candidate loop); a quoted-syntax candidate containing the key records the
rebuilt line but the scan continues (its `break` only leaves the inner
token loop), so a later match overwrites an earlier quoted one. -/
def scanCands (key val : List Char) : List Instr → Option Found → Except PyErr (Option Found)
  | [], acc => .ok acc
  | c :: rest, acc =>
    match shlexSplit c.value with
    | .error e => .error e
    | .ok [] => .error .indexError
    | .ok (s0 :: srest) =>
      if !(s0.any fun c => c == '=') then
        match splitNone1 (stripQuotes c.value) with
        | [] => .error .indexError
        | [w0] =>
          if w0 = key then .error .indexError
          else scanCands key val rest acc
        | w0 :: _ :: _ =>
          if w0 = key then .ok (some ⟨legacyContent w0 val, c.startline, c.endline⟩)
          else scanCands key val rest acc
      else
        match innerScan key val (s0 :: srest) with
        | .error e => .error e
        | .ok (some newSplits) =>
          scanCands key val rest (some ⟨quotedContent newSplits, c.startline, c.endline⟩)
        | .ok none => scanCands key val rest acc

/-- The record produced when a candidate is a successful quoted-syntax
match for the key: the rebuilt line and the candidate span; `none` when the
candidate is not a quoted-syntax match (error cases included). -/
def quotedResult (key val : List Char) (c : Instr) : Option Found :=
  match shlexSplit c.value with
  | .ok (s0 :: srest) =>
    if s0.any (fun ch => ch == '=') then
      match innerScan key val (s0 :: srest) with
      | .ok (some newSplits) => some ⟨quotedContent newSplits, c.startline, c.endline⟩
      | _ => none
    else none
  | _ => none

/-- The LABEL instructions of the file, in order. -/
def labelCands (lines : List (List Char)) : List Instr :=
  (structure' lines).filter fun i => decide (i.instruction = "LABEL".toList)

/-- The method `_modify_instruction_label`: raise `KeyError` when the key is not in the
label dictionary (computing that dictionary may itself raise); then scan the
LABEL candidates; then `assert content and startline and endline` — note the
*truthiness* test, failed by a span starting (hence also ending) at line 0 —
and finally splice the rebuilt line over the recorded span. -/
def modifyInstructionLabel (lines : List (List Char)) (key val : List Char) :
    Except (PyErr × List (List Char)) (List (List Char)) :=
  match labelsModel lines with
  | .error e => .error (e, lines)
  | .ok d =>
    if (dictGet d key).isSome then
      match scanCands key val (labelCands lines) none with
      | .error e => .error (e, lines)
      | .ok none => .error (.assertError, lines)
      | .ok (some f) =>
        if !f.content.isEmpty && f.startline != 0 && f.endline != 0 then
          .ok (spliceReplace lines f.startline f.endline f.content)
        else .error (.assertError, lines)
    else .error (.keyError, lines)

/-- The method `change_labels`: a non-dict argument raises `TypeError`; otherwise each
entry is applied through `_modify_instruction_label` in order, an exception
aborting the remaining updates. -/
def changeLabelsGo : List (List Char × List Char) → List (List Char) →
    Except (PyErr × List (List Char)) (List (List Char))
  | [], ls => .ok ls
  | kv :: rest, ls =>
    match modifyInstructionLabel ls kv.1 kv.2 with
    | .error e => .error e
    | .ok ls' => changeLabelsGo rest ls'

def changeLabels (lines : List (List Char)) (arg : LabelsArg) :
    Except (PyErr × List (List Char)) (List (List Char)) :=
  match arg with
  | .notDict => .error (.typeError, lines)
  | .dict kvs => changeLabelsGo kvs lines

@[simp] theorem openInstr_startline (n : Nat) (l w g2 : List Char) :
    (openInstr n l w g2).startline = n := rfl

@[simp] theorem openInstr_endline (n : Nat) (l w g2 : List Char) :
    (openInstr n l w g2).endline = n := rfl

@[simp] theorem extendInstr_startline (c : Instr) (n : Nat) (l : List Char) :
    (extendInstr c n l).startline = c.startline := rfl

@[simp] theorem extendInstr_endline (c : Instr) (n : Nat) (l : List Char) :
    (extendInstr c n l).endline = n := rfl

@[simp] theorem structGo_nil (n : Nat) (cur : Option Instr) :
    structGo n cur [] = ([], cur) := by
  cases cur <;> rfl

theorem structGo_skip {l : List Char} (n : Nat) (rest : List (List Char))
    (h : insnMatch l = none) :
    structGo n none (l :: rest) = structGo (n+1) none rest := by
  simp [structGo, h]

theorem structGo_open_cont {l w g2 : List Char} (n : Nat) (rest : List (List Char))
    (h : insnMatch l = some (w, g2)) (hc : contMatch l = true) :
    structGo n none (l :: rest) = structGo (n+1) (some (openInstr n l w g2)) rest := by
  simp [structGo, h, hc]

theorem structGo_open_close {l w g2 : List Char} (n : Nat) (rest : List (List Char))
    (h : insnMatch l = some (w, g2)) (hc : contMatch l = false) :
    structGo n none (l :: rest) =
      (openInstr n l w g2 :: (structGo (n+1) none rest).1, (structGo (n+1) none rest).2) := by
  simp [structGo, h, hc]

theorem structGo_cont {l : List Char} (n : Nat) (c : Instr) (rest : List (List Char))
    (hc : contMatch l = true) :
    structGo n (some c) (l :: rest) = structGo (n+1) (some (extendInstr c n l)) rest := by
  simp [structGo, hc]

theorem structGo_close {l : List Char} (n : Nat) (c : Instr) (rest : List (List Char))
    (hc : contMatch l = false) :
    structGo n (some c) (l :: rest) =
      (extendInstr c n l :: (structGo (n+1) none rest).1, (structGo (n+1) none rest).2) := by
  simp [structGo, hc]

/-- Master invariant of the scan: emitted instructions have well-formed,
in-bound, pairwise disjoint and increasing line spans, and a dangling final
accumulator always ends strictly after every emitted instruction. -/
theorem structGo_inv (lines : List (List Char)) :
    ∀ (n : Nat) (cur : Option Instr),
    (∀ c0, cur = some c0 → c0.startline ≤ c0.endline ∧ c0.endline + 1 = n) →
    (∀ i ∈ (structGo n cur lines).1,
        i.startline ≤ i.endline ∧ i.endline < n + lines.length) ∧
    (cur = none → ∀ i ∈ (structGo n cur lines).1, n ≤ i.startline) ∧
    (∀ c0, cur = some c0 → ∀ i ∈ (structGo n cur lines).1, c0.startline ≤ i.startline) ∧
    List.Pairwise (fun a b => a.endline < b.startline) (structGo n cur lines).1 ∧
    (∀ c, (structGo n cur lines).2 = some c →
      c.startline ≤ c.endline ∧ n ≤ c.endline + 1 ∧
      (cur = none → n ≤ c.startline) ∧
      (∀ c0, cur = some c0 → c0.startline ≤ c.startline) ∧
      (∀ i ∈ (structGo n cur lines).1, i.endline < c.endline)) := by
  induction lines with
  | nil =>
    intro n cur hcur
    simp only [structGo_nil]
    refine ⟨by simp, by simp, by simp [List.not_mem_nil], List.Pairwise.nil, ?_⟩
    intro c hc
    cases cur with
    | none => exact Option.noConfusion hc
    | some c0 =>
      obtain ⟨h1, h2⟩ := hcur c0 rfl
      injection hc with hc
      subst hc
      refine ⟨h1, by omega, ?_, ?_, by simp⟩
      · intro h; exact Option.noConfusion h
      · intro c0' h; injection h with h; subst h; exact le_refl _
  | cons l rest ih =>
    intro n cur hcur
    cases cur with
    | none =>
      cases hm : insnMatch l with
      | none =>
        rw [structGo_skip n rest hm]
        obtain ⟨P1, P2, P3, P4, P5⟩ := ih (n+1) none (fun c0 h => Option.noConfusion h)
        refine ⟨?_, ?_, ?_, P4, ?_⟩
        · intro i hi
          obtain ⟨h1, h2⟩ := P1 i hi
          exact ⟨h1, by simp only [List.length_cons]; omega⟩
        · intro _ i hi
          exact le_trans (Nat.le_succ n) (P2 rfl i hi)
        · intro c0 h; exact Option.noConfusion h
        · intro c hc
          obtain ⟨q1, q2, q3, q4, q5⟩ := P5 c hc
          refine ⟨q1, by omega, ?_, ?_, q5⟩
          · intro _; have := q3 rfl; omega
          · intro c0 h; exact Option.noConfusion h
      | some wg =>
        obtain ⟨w, g2⟩ := wg
        cases hc : contMatch l with
        | true =>
          rw [structGo_open_cont n rest hm hc]
          obtain ⟨P1, P2, P3, P4, P5⟩ := ih (n+1) (some (openInstr n l w g2))
            (by intro c1 h; injection h with h; subst h; simp)
          refine ⟨?_, ?_, ?_, P4, ?_⟩
          · intro i hi
            obtain ⟨h1, h2⟩ := P1 i hi
            exact ⟨h1, by simp only [List.length_cons]; omega⟩
          · intro _ i hi
            have := P3 (openInstr n l w g2) rfl i hi
            simpa using this
          · intro c0 h; exact Option.noConfusion h
          · intro cf hcf
            obtain ⟨q1, q2, q3, q4, q5⟩ := P5 cf hcf
            refine ⟨q1, by omega, ?_, ?_, q5⟩
            · intro _
              have := q4 (openInstr n l w g2) rfl
              simpa using this
            · intro c0 h; exact Option.noConfusion h
        | false =>
          rw [structGo_open_close n rest hm hc]
          obtain ⟨P1, P2, P3, P4, P5⟩ := ih (n+1) none (fun c0 h => Option.noConfusion h)
          refine ⟨?_, ?_, ?_, ?_, ?_⟩
          · intro i hi
            rcases List.mem_cons.mp hi with h | h
            · subst h
              refine ⟨by simp, by simp only [openInstr_endline, List.length_cons]; omega⟩
            · obtain ⟨h1, h2⟩ := P1 i h
              exact ⟨h1, by simp only [List.length_cons]; omega⟩
          · intro _ i hi
            rcases List.mem_cons.mp hi with h | h
            · subst h; simp
            · have := P2 rfl i h; omega
          · intro c0 h; exact Option.noConfusion h
          · refine List.pairwise_cons.mpr ⟨?_, P4⟩
            intro j hj
            have := P2 rfl j hj
            simp only [openInstr_endline]; omega
          · intro cf hcf
            obtain ⟨q1, q2, q3, q4, q5⟩ := P5 cf hcf
            have hstart : n + 1 ≤ cf.startline := q3 rfl
            refine ⟨q1, by omega, ?_, ?_, ?_⟩
            · intro _; omega
            · intro c0 h; exact Option.noConfusion h
            · intro i hi
              rcases List.mem_cons.mp hi with h | h
              · subst h; simp only [openInstr_endline]; omega
              · exact q5 i h
    | some c0 =>
      obtain ⟨hs1, hs2⟩ := hcur c0 rfl
      cases hc : contMatch l with
      | true =>
        rw [structGo_cont n c0 rest hc]
        obtain ⟨P1, P2, P3, P4, P5⟩ := ih (n+1) (some (extendInstr c0 n l))
          (by intro c1 h; injection h with h; subst h
              refine ⟨?_, rfl⟩
              simp only [extendInstr_startline, extendInstr_endline]
              omega)
        refine ⟨?_, ?_, ?_, P4, ?_⟩
        · intro i hi
          obtain ⟨h1, h2⟩ := P1 i hi
          exact ⟨h1, by simp only [List.length_cons]; omega⟩
        · intro h; exact Option.noConfusion h
        · intro c0' h i hi
          injection h with h; subst h
          have := P3 (extendInstr c0 n l) rfl i hi
          simpa using this
        · intro cf hcf
          obtain ⟨q1, q2, q3, q4, q5⟩ := P5 cf hcf
          refine ⟨q1, by omega, ?_, ?_, q5⟩
          · intro h; exact Option.noConfusion h
          · intro c0' h; injection h with h; subst h
            have := q4 (extendInstr c0 n l) rfl
            simpa using this
      | false =>
        rw [structGo_close n c0 rest hc]
        obtain ⟨P1, P2, P3, P4, P5⟩ := ih (n+1) none (fun c1 h => Option.noConfusion h)
        refine ⟨?_, ?_, ?_, ?_, ?_⟩
        · intro i hi
          rcases List.mem_cons.mp hi with h | h
          · subst h
            refine ⟨?_, ?_⟩
            · simp only [extendInstr_startline, extendInstr_endline]; omega
            · simp only [extendInstr_endline, List.length_cons]; omega
          · obtain ⟨h1, h2⟩ := P1 i h
            exact ⟨h1, by simp only [List.length_cons]; omega⟩
        · intro h; exact Option.noConfusion h
        · intro c0' h i hi
          injection h with h; subst h
          rcases List.mem_cons.mp hi with h | h
          · subst h; simp
          · have := P2 rfl i h; omega
        · refine List.pairwise_cons.mpr ⟨?_, P4⟩
          intro j hj
          have := P2 rfl j hj
          simp only [extendInstr_endline]; omega
        · intro cf hcf
          obtain ⟨q1, q2, q3, q4, q5⟩ := P5 cf hcf
          have hstart : n + 1 ≤ cf.startline := q3 rfl
          refine ⟨q1, by omega, ?_, ?_, ?_⟩
          · intro h; exact Option.noConfusion h
          · intro c0' h; injection h with h; subst h; omega
          · intro i hi
            rcases List.mem_cons.mp hi with h | h
            · subst h; simp only [extendInstr_endline]; omega
            · exact q5 i h

/-- Every derived instruction has a well-formed span inside the file. -/
theorem structure_spans (lines : List (List Char)) :
    ∀ i ∈ structure' lines, i.startline ≤ i.endline ∧ i.endline < lines.length := by
  intro i hi
  have h := (structGo_inv lines 0 none (fun c0 h => Option.noConfusion h)).1 i hi
  exact ⟨h.1, by omega⟩

/-- Derived instructions never overlap: spans are pairwise disjoint and
listed in increasing line order. -/
theorem structure_pairwise (lines : List (List Char)) :
    List.Pairwise (fun a b => a.endline < b.startline) (structure' lines) :=
  (structGo_inv lines 0 none (fun _ h => Option.noConfusion h)).2.2.2.1

/-- C1: evaluation of the structurer at the claimed input.  The claim (and
the docstring of the `structure` property in the source) states that the
two-line continuation folds to the value `a b`.  The code instead yields
`a     b`: stripping the continuation backslash leaves the space that
preceded it, and because the accumulated value `a ` is non-empty the
continuation line is appended without removing its leading whitespace.  The
second conjunct evaluates the very example given in the source docstring,
which the code also contradicts (five spaces instead of one). -/
theorem c1_continuation_value_code_eval :
    structure' ["RUN a \\\n".toList, "    b\n".toList] =
      [⟨"RUN".toList, 0, 1, "RUN a \\\n    b\n".toList, "a     b".toList⟩] ∧
    structure' ["CMD yum -y update && \\\n".toList, "    yum clean all\n".toList] =
      [⟨"CMD".toList, 0, 1, "CMD yum -y update && \\\n    yum clean all\n".toList,
        "yum -y update &&     yum clean all".toList⟩] :=
  ⟨by decide, by decide⟩

/-- C3: when the scan runs out of input while still in continuation (the
last physical line ends in a continuation backslash) with a dangling
accumulated instruction, that instruction is never appended to the output:
it is silently dropped, not emitted and not an error. -/
theorem c3_unterminated_continuation_dropped (lines : List (List Char))
    (out : List Instr) (c : Instr) (h : structAux lines = (out, some c)) :
    c ∉ out := by
  intro hmem
  have hinv := (structGo_inv lines 0 none (fun _ h0 => Option.noConfusion h0)).2.2.2.2
  have h1 : (structGo 0 none lines).1 = out := by
    unfold structAux at h; rw [h]
  have h2 : (structGo 0 none lines).2 = some c := by
    unfold structAux at h; rw [h]
  have := (hinv c h2).2.2.2.2 c (by rw [h1]; exact hmem)
  omega

/-- Witness for C3: a concrete file ending in an unterminated continuation;
the dangling `RUN` instruction is absent from the output. -/
theorem c3_unterminated_continuation_dropped_witness :
    structAux ["FROM f\n".toList, "RUN a \\\n".toList] =
      ([⟨"FROM".toList, 0, 0, "FROM f\n".toList, "f".toList⟩],
       some ⟨"RUN".toList, 1, 1, "RUN a \\\n".toList, "a ".toList⟩) ∧
    (⟨"RUN".toList, 1, 1, "RUN a \\\n".toList, "a ".toList⟩ : Instr) ∉
      [(⟨"FROM".toList, 0, 0, "FROM f\n".toList, "f".toList⟩ : Instr)] :=
  ⟨by decide,
   c3_unterminated_continuation_dropped ["FROM f\n".toList, "RUN a \\\n".toList] _ _ (by decide)⟩

/-- Splicing a single-line span in bounds is a pointwise replacement. -/
theorem spliceReplace_single (ls : List (List Char)) (s : Nat) (x : List Char)
    (h : s < ls.length) : spliceReplace ls s s x = ls.set s x := by
  induction ls generalizing s with
  | nil => simp at h
  | cons a t ih =>
    cases s with
    | zero => simp [spliceReplace, delSlice, insertAt]
    | succ s' =>
      have h' : s' < t.length := by simpa using h
      have hmax : max (s' + 1) (s' + 1 + 1) = s' + 1 + 1 := by omega
      have hD : delSlice (a :: t) (s' + 1) (s' + 1 + 1) = a :: delSlice t s' (s' + 1) := by
        simp [delSlice, hmax, Nat.max_eq_right (Nat.le_succ s')]
      show insertAt (delSlice (a :: t) (s' + 1) (s' + 1 + 1)) (s' + 1) x = (a :: t).set (s' + 1) x
      rw [hD]
      show a :: insertAt (delSlice t s' (s' + 1)) s' x = a :: t.set s' x
      exact congrArg (List.cons a) (ih s' h')

/-- When every selected instruction spans one line, the splice fold is the
pointwise `set` fold: the length never changes, so the indices recorded in
the single `structure` derivation stay valid at every step. -/
theorem foldl_splice_eq_foldl_set (p : Instr → Bool) (x : List Char) :
    ∀ (insns : List Instr) (ls : List (List Char)),
    (∀ i ∈ insns, p i = true → i.startline = i.endline ∧ i.startline < ls.length) →
    insns.foldl (fun ls i => if p i then spliceReplace ls i.startline i.endline x else ls) ls =
      insns.foldl (fun ls i => if p i then ls.set i.startline x else ls) ls := by
  intro insns
  induction insns with
  | nil => intro ls _; rfl
  | cons i rest ih =>
    intro ls h
    simp only [List.foldl_cons]
    cases hp : p i with
    | false =>
      rw [if_neg Bool.false_ne_true, if_neg Bool.false_ne_true]
      exact ih ls (fun j hj hpj => h j (List.mem_cons_of_mem i hj) hpj)
    | true =>
      obtain ⟨heq, hlt⟩ := h i (List.mem_cons_self i rest) hp
      rw [if_pos rfl, if_pos rfl, ← heq, spliceReplace_single ls i.startline x hlt]
      exact ih (ls.set i.startline x)
        (fun j hj hpj => by
          obtain ⟨h1, h2⟩ := h j (List.mem_cons_of_mem i hj) hpj
          exact ⟨h1, by simpa [List.length_set] using h2⟩)

/-- Pointwise description of the `set` fold: position `k` holds the
replacement line exactly when some selected instruction starts there, and
is untouched otherwise; the length is preserved. -/
theorem foldl_set_getElem (p : Instr → Bool) (x : List Char) :
    ∀ (insns : List Instr) (ls : List (List Char)),
    (∀ i ∈ insns, p i = true → i.startline < ls.length) →
    ((insns.foldl (fun ls i => if p i then ls.set i.startline x else ls) ls).length = ls.length ∧
     ∀ k, (insns.foldl (fun ls i => if p i then ls.set i.startline x else ls) ls)[k]? =
       if insns.any (fun i => p i && i.startline == k) then some x else ls[k]?) := by
  intro insns
  induction insns with
  | nil => intro ls _; simp
  | cons i rest ih =>
    intro ls h
    simp only [List.foldl_cons]
    cases hp : p i with
    | false =>
      rw [if_neg Bool.false_ne_true]
      obtain ⟨ih1, ih2⟩ := ih ls (fun j hj hpj => h j (List.mem_cons_of_mem i hj) hpj)
      refine ⟨ih1, fun k => ?_⟩
      rw [ih2 k]
      have : ((i :: rest).any fun j => p j && j.startline == k) =
          (rest.any fun j => p j && j.startline == k) := by
        simp [List.any_cons, hp]
      rw [this]
    | true =>
      have hlt := h i (List.mem_cons_self i rest) hp
      rw [if_pos rfl]
      obtain ⟨ih1, ih2⟩ := ih (ls.set i.startline x)
        (fun j hj hpj => by simpa [List.length_set] using h j (List.mem_cons_of_mem i hj) hpj)
      refine ⟨by simpa [List.length_set] using ih1, fun k => ?_⟩
      rw [ih2 k]
      by_cases hany : rest.any (fun j => p j && j.startline == k) = true
      · rw [if_pos hany, if_pos (by simp [List.any_cons, hany])]
      · have hanyf : rest.any (fun j => p j && j.startline == k) = false := by
          simpa using hany
        rw [if_neg hany]
        by_cases hk : i.startline = k
        · subst hk
          rw [List.getElem?_set_eq_of_lt x hlt,
            if_pos (by simp [List.any_cons, hp] : ((i :: rest).any fun j => p j && j.startline == i.startline) = true)]
        · rw [List.getElem?_set_ne hk,
            if_neg (show ¬(((i :: rest).any fun j => p j && j.startline == k) = true) by
              simp [List.any_cons, hp, hk, hanyf])]

/-- C2 counterexample: the claim says the span of each splice is recomputed
from a fresh `structure()` derivation after each edit, so that all matched
instructions end up replaced even when an earlier one spanned several
physical lines.  On this input the first `RUN` spans lines 0-1; replacing it
shortens the file, and the second match is then spliced with its stale span
`[2,2]`, leaving the line `RUN c\n` unreplaced and appending an extra copy
of the new line instead. -/
theorem c2_stale_indices_counterexample :
    modifyInstruction ["RUN a \\\n".toList, "b\n".toList, "RUN c\n".toList]
        ("RUN".toList) ("x".toList) none =
      .ok ["RUN x\n".toList, "RUN c\n".toList, "RUN x\n".toList] ∧
    "RUN c\n".toList ∈ ["RUN x\n".toList, "RUN c\n".toList, "RUN x\n".toList] :=
  ⟨by decide, by decide⟩

/-- C2 amended: `_modify_instruction` derives `self.structure` once, before
any edit, and splices every matching instruction using the spans of that
single derivation.  When every matching instruction occupies a single
physical line the spans stay valid across the splices, and the result
replaces exactly the starting line of each match with
`"<NAME> <new_value>\n"`, leaving every other line untouched. -/
theorem c2_single_line_replacements (lines : List (List Char))
    (instruction newValue : List Char) (oldValue : Option (List Char))
    (hname : instruction ≠ "LABEL".toList)
    (hsingle : ∀ i ∈ structure' lines,
      modifyMatch instruction oldValue i = true → i.startline = i.endline) :
    ∃ res, modifyInstruction lines instruction newValue oldValue = .ok res ∧
      res.length = lines.length ∧
      ∀ k, res[k]? =
        if (structure' lines).any
            (fun i => modifyMatch instruction oldValue i && i.startline == k)
        then some (newLineFor instruction newValue) else lines[k]? := by
  have hbounds : ∀ i ∈ structure' lines,
      modifyMatch instruction oldValue i = true → i.startline < lines.length := by
    intro i hi hp
    have h1 := structure_spans lines i hi
    have h2 := hsingle i hi hp
    omega
  refine ⟨(structure' lines).foldl
    (fun ls i => if modifyMatch instruction oldValue i
      then ls.set i.startline (newLineFor instruction newValue) else ls) lines, ?_, ?_, ?_⟩
  · unfold modifyInstruction
    rw [if_neg hname]
    exact congrArg Except.ok (foldl_splice_eq_foldl_set _ _ _ lines
      (fun i hi hp => ⟨hsingle i hi hp, hbounds i hi hp⟩))
  · exact (foldl_set_getElem _ _ _ lines hbounds).1
  · exact (foldl_set_getElem _ _ _ lines hbounds).2

/-- Witness for the amended C2 on a file whose two `RUN` matches are both
single-line: both lines are replaced in place and `FROM` is untouched. -/
theorem c2_single_line_replacements_witness :
    (("RUN".toList ≠ "LABEL".toList) ∧
     (∀ i ∈ structure' ["FROM f\n".toList, "RUN a\n".toList, "RUN b\n".toList],
        modifyMatch ("RUN".toList) none i = true → i.startline = i.endline)) ∧
    (∃ res, modifyInstruction ["FROM f\n".toList, "RUN a\n".toList, "RUN b\n".toList]
        ("RUN".toList) ("x".toList) none = .ok res ∧
      res.length = ["FROM f\n".toList, "RUN a\n".toList, "RUN b\n".toList].length ∧
      ∀ k, res[k]? =
        if (structure' ["FROM f\n".toList, "RUN a\n".toList, "RUN b\n".toList]).any
            (fun i => modifyMatch ("RUN".toList) none i && i.startline == k)
        then some (newLineFor ("RUN".toList) ("x".toList))
        else ["FROM f\n".toList, "RUN a\n".toList, "RUN b\n".toList][k]?) :=
  ⟨⟨by decide, by decide⟩,
   c2_single_line_replacements _ _ _ _ (by decide) (by decide)⟩

/-- C6: both invalid-argument cases are rejected before any mutation: the
generic value-replace refuses the LABEL keyword with `ValueError`, and the
bulk label setter refuses a non-dict argument with `TypeError`; in both
cases the error carries the untouched backing line sequence. -/
theorem c6_invalid_arguments :
    (∀ (lines : List (List Char)) (newValue : List Char) (oldValue : Option (List Char)),
      modifyInstruction lines ("LABEL".toList) newValue oldValue =
        .error (.valueError, lines)) ∧
    (∀ lines : List (List Char),
      setLabels lines .notDict = .error (.typeError, lines)) :=
  ⟨fun lines _ _ => by simp [modifyInstruction], fun _ => rfl⟩

/-- C7: when the key is absent from the label dictionary the single-label
update raises `KeyError`, before any mutation: the error carries the
untouched line sequence. -/
theorem c7_missing_key (lines : List (List Char)) (key val : List Char)
    (d : List (List Char × List Char))
    (hd : labelsModel lines = .ok d) (hk : dictGet d key = none) :
    modifyInstructionLabel lines key val = .error (.keyError, lines) := by
  unfold modifyInstructionLabel
  rw [hd]
  simp [hk]

/-- Witness for C7: a file with no labels at all. -/
theorem c7_missing_key_witness :
    (labelsModel ["FROM f\n".toList] = .ok [] ∧
     dictGet [] ("a".toList) = none) ∧
    modifyInstructionLabel ["FROM f\n".toList] ("a".toList) ("b".toList) =
      .error (.keyError, ["FROM f\n".toList]) :=
  ⟨⟨by decide, by decide⟩, c7_missing_key _ _ _ [] (by decide) (by decide)⟩

/-- C10: the labels getter is not total.  The single line `LABEL \n` passes
the instruction regex with an empty remainder, `shlex`-splitting the empty
value yields no tokens, and indexing `splits[0]` raises `IndexError`. -/
theorem c10_labels_not_total :
    structure' ["LABEL \n".toList] =
      [⟨"LABEL".toList, 0, 0, "LABEL \n".toList, []⟩] ∧
    labelsModel ["LABEL \n".toList] = .error .indexError :=
  ⟨by decide, by decide⟩

/-- The dict fold of the labels getter is the pair concatenation followed by
sequential dict assignment. -/
theorem labelsGo_eq_collect (instrs : List Instr) :
    ∀ d, labelsGo instrs d =
      match collectGo instrs with
      | .error e => .error e
      | .ok ps => .ok (ps.foldl (fun d p => dictSet d p.1 p.2) d) := by
  induction instrs with
  | nil => intro d; rfl
  | cons i rest ih =>
    intro d
    simp only [labelsGo, collectGo]
    by_cases hl : i.instruction = "LABEL".toList
    · rw [if_pos hl, if_pos hl]
      cases hp : labelPairs i.value with
      | error e => rfl
      | ok ps =>
        dsimp only
        rw [ih]
        cases hc : collectGo rest with
        | error e => rfl
        | ok qs =>
          dsimp only
          rw [List.foldl_append]
    · rw [if_neg hl, if_neg hl]
      exact ih d

/-- Lookup at the head of a dict whose first key matches. -/
theorem dictGet_cons_eq (p : List Char × List Char) (t : List (List Char × List Char))
    (k : List Char) (h : p.1 = k) : dictGet (p :: t) k = some p.2 := by
  simp [dictGet, List.find?_cons, h]

/-- Lookup skips a head whose key differs. -/
theorem dictGet_cons_ne (p : List Char × List Char) (t : List (List Char × List Char))
    (k : List Char) (h : ¬ p.1 = k) : dictGet (p :: t) k = dictGet t k := by
  simp [dictGet, List.find?_cons, h]

/-- Lookup in the overwrite map of a dict assignment, at a different key. -/
theorem dictGet_map_ne (t : List (List Char × List Char)) (k k' v : List Char)
    (hkk : ¬ k = k') :
    dictGet (t.map fun p => if p.1 = k then (p.1, v) else p) k' = dictGet t k' := by
  induction t with
  | nil => rfl
  | cons p t ih =>
    rw [List.map_cons]
    by_cases hpk : p.1 = k
    · rw [if_pos hpk]
      by_cases hpk' : p.1 = k'
      · exact absurd (by rw [← hpk]; exact hpk') hkk
      · rw [dictGet_cons_ne (p.1, v) _ k' hpk', dictGet_cons_ne p t k' hpk', ih]
    · rw [if_neg hpk]
      by_cases hpk' : p.1 = k'
      · rw [dictGet_cons_eq p _ k' hpk', dictGet_cons_eq p t k' hpk']
      · rw [dictGet_cons_ne p _ k' hpk', dictGet_cons_ne p t k' hpk', ih]

/-- Lookup in the overwrite map of a dict assignment, at the assigned key
(which must be present). -/
theorem dictGet_map_eq (t : List (List Char × List Char)) (k v : List Char)
    (hany : t.any (fun p => decide (p.1 = k)) = true) :
    dictGet (t.map fun p => if p.1 = k then (p.1, v) else p) k = some v := by
  induction t with
  | nil => simp at hany
  | cons p t ih =>
    rw [List.map_cons]
    by_cases hpk : p.1 = k
    · rw [if_pos hpk, dictGet_cons_eq (p.1, v) _ k hpk]
    · have hany' : t.any (fun p => decide (p.1 = k)) = true := by
        simpa [List.any_cons, hpk] using hany
      rw [if_neg hpk, dictGet_cons_ne p _ k hpk, ih hany']

/-- Overwriting lookup after a single dict assignment. -/
theorem dictGet_dictSet (d : List (List Char × List Char)) (k k' v : List Char) :
    dictGet (dictSet d k v) k' = if k = k' then some v else dictGet d k' := by
  unfold dictSet
  by_cases hany : d.any (fun p => decide (p.1 = k)) = true
  · rw [if_pos hany]
    by_cases hkk : k = k'
    · subst hkk
      rw [if_pos rfl, dictGet_map_eq d k v hany]
    · rw [if_neg hkk, dictGet_map_ne d k k' v hkk]
  · rw [if_neg hany]
    have hnone : d.find? (fun p => decide (p.1 = k)) = none := by
      rw [List.find?_eq_none]
      intro p hp
      simp only [decide_eq_true_eq]
      intro hpk
      exact hany (List.any_eq_true.mpr ⟨p, hp, by simp [hpk]⟩)
    by_cases hkk : k = k'
    · subst hkk
      rw [if_pos rfl]
      simp [dictGet, List.find?_append, hnone, List.find?_cons]
    · rw [if_neg hkk]
      have hone : List.find? (fun p => decide (p.1 = k')) [(k, v)] = none := by
        simp [List.find?_cons, hkk]
      simp [dictGet, List.find?_append, hone]

/-- Lookup after folding a pair list into a dict: the last binding wins,
falling back to the initial dict. -/
theorem dictGet_foldl (ps : List (List Char × List Char)) :
    ∀ (d : List (List Char × List Char)) (k : List Char),
    dictGet (ps.foldl (fun d p => dictSet d p.1 p.2) d) k =
      match lastLookup ps k with
      | some v => some v
      | none => dictGet d k := by
  induction ps with
  | nil => intro d k; rfl
  | cons p t ih =>
    intro d k
    simp only [List.foldl_cons]
    rw [ih]
    have hlast : lastLookup (p :: t) k =
        match lastLookup t k with
        | some v => some v
        | none => if p.1 = k then some p.2 else none := by
      simp only [lastLookup, List.reverse_cons, List.find?_append]
      cases hf : (t.reverse.find? fun q => decide (q.1 = k)) with
      | some q => simp [lastLookup, hf]
      | none =>
        by_cases hpk : p.1 = k <;>
          simp [lastLookup, hf, List.find?_cons, hpk]
    rw [hlast]
    cases hf : lastLookup t k with
    | some v => rfl
    | none =>
      rw [dictGet_dictSet]
      by_cases hpk : p.1 = k
      · rw [if_pos hpk, if_pos hpk]
      · rw [if_neg hpk, if_neg hpk]

/-- Bridge between the membership test for `=` and the split at the
first `=`. -/
theorem anyEq_eq_dropWhile (tok : List Char) :
    (tok.any fun c => c == '=') = !(tok.dropWhile fun c => !(c == '=')).isEmpty := by
  induction tok with
  | nil => rfl
  | cons c t ih =>
    by_cases hc : c = '='
    · subst hc; simp [List.any_cons, List.dropWhile_cons]
    · simp [List.any_cons, List.dropWhile_cons, hc, ih]

/-- The pair extracted from one token, written independently of the
implementation split: the part before the first `=`, and the part after it
when the token has one, the empty string otherwise. -/
theorem tokKV_spec (tok : List Char) :
    tokKV tok = (tok.takeWhile (fun c => !(c == '=')),
      if tok.any (fun c => c == '=') then (tok.dropWhile fun c => !(c == '=')).tail
      else []) := by
  cases hr : tok.dropWhile (fun c => !(c == '=')) with
  | nil =>
    have hb := anyEq_eq_dropWhile tok
    rw [hr] at hb
    simp only [List.isEmpty_nil, Bool.not_true] at hb
    simp [tokKV, splitEq1, hr, hb]
  | cons a tail =>
    have hb := anyEq_eq_dropWhile tok
    rw [hr] at hb
    simp only [List.isEmpty_cons, Bool.not_false] at hb
    simp [tokKV, splitEq1, hr, hb]

/-- C5: the labels getter.  First conjunct: legacy detection and
extraction — when the first shell token has no `=`, the pairs are the
quote-stripped value split once on whitespace, the value defaulting to the
empty string.  Second conjunct: key=value extraction — when the first shell
token has an `=`, every token contributes its part before the first `=` as
key and the part after it (or the empty string) as value.  Third conjunct:
when several LABEL instructions bind the same key, the returned dictionary
holds the value of the *last* binding in file order. -/
theorem c5_labels_getter :
    (∀ (v s0 : List Char) (srest : List (List Char)) (k : List Char)
        (kvrest : List (List Char)),
      shlexSplit v = .ok (s0 :: srest) → (s0.any fun c => c == '=') = false →
      splitNone1 (stripQuotes v) = k :: kvrest →
      labelPairs v = .ok [(k, kvrest.headD [])]) ∧
    (∀ (v s0 : List Char) (srest : List (List Char)),
      shlexSplit v = .ok (s0 :: srest) → (s0.any fun c => c == '=') = true →
      labelPairs v = .ok ((s0 :: srest).map fun tok =>
        (tok.takeWhile (fun c => !(c == '=')),
         if tok.any (fun c => c == '=') then (tok.dropWhile fun c => !(c == '=')).tail
         else []))) ∧
    (∀ (lines : List (List Char)) (d ps : List (List Char × List Char)) (k : List Char),
      labelsModel lines = .ok d → collectPairs lines = .ok ps →
      dictGet d k = lastLookup ps k) := by
  refine ⟨?_, ?_, ?_⟩
  · intro v s0 srest k kvrest hsplit hnoeq hkv
    cases kvrest with
    | nil => simp [labelPairs, hsplit, hnoeq, hkv]
    | cons r rr => simp [labelPairs, hsplit, hnoeq, hkv]
  · intro v s0 srest hsplit heq
    rw [show labelPairs v = .ok ((s0 :: srest).map tokKV) from by
      simp [labelPairs, hsplit, heq]]
    congr 1
    exact List.map_congr_left fun tok _ => tokKV_spec tok
  · intro lines d ps k hd hps
    unfold labelsModel at hd
    unfold collectPairs at hps
    rw [labelsGo_eq_collect, hps] at hd
    dsimp only at hd
    injection hd with hd
    subst hd
    rw [dictGet_foldl]
    cases hl : lastLookup ps k with
    | some v => rfl
    | none => rfl

/-- Witness for C5: the three conjuncts at concrete inputs — a legacy
label, a key=value label with a valueless token, and two LABEL instructions
binding `a` where the later binding is the one in the dictionary. -/
theorem c5_labels_getter_witness :
    labelPairs ("a b".toList) = .ok [("a".toList, "b".toList)] ∧
    labelPairs ("a=1 b".toList) = .ok [("a".toList, "1".toList), ("b".toList, [])] ∧
    dictGet [("a".toList, "c".toList), ("d".toList, "e".toList)] ("a".toList) =
      lastLookup [("a".toList, "b".toList), ("a".toList, "c".toList),
        ("d".toList, "e".toList)] ("a".toList) := by
  refine ⟨?_, ?_, ?_⟩
  · rw [c5_labels_getter.1 ("a b".toList) ("a".toList) ["b".toList] ("a".toList) ["b".toList]
      (by decide) (by decide) (by decide)]
    decide
  · rw [c5_labels_getter.2.1 ("a=1 b".toList) ("a=1".toList) ["b".toList]
      (by decide) (by decide)]
    decide
  · exact c5_labels_getter.2.2 ["LABEL a b\n".toList, "LABEL a=c d=e\n".toList]
      [("a".toList, "c".toList), ("d".toList, "e".toList)]
      [("a".toList, "b".toList), ("a".toList, "c".toList), ("d".toList, "e".toList)]
      ("a".toList) (by decide) (by decide)


/-- A successful quoted-syntax match records the candidate but the scan
continues over the remaining candidates, the recorded match becoming the
new accumulator. -/
theorem scanCands_quoted_step (key val : List Char) (c : Instr) (rest : List Instr)
    (acc : Option Found) (f : Found) (h : quotedResult key val c = some f) :
    scanCands key val (c :: rest) acc = scanCands key val rest (some f) := by
  unfold quotedResult at h
  cases hsplit : shlexSplit c.value with
  | error e => rw [hsplit] at h; exact absurd h (by simp)
  | ok splits =>
    rw [hsplit] at h
    cases splits with
    | nil => exact absurd h (by simp)
    | cons s0 srest =>
      dsimp only at h
      by_cases hcond : (s0.any fun ch => ch == '=') = true
      · rw [if_pos hcond] at h
        cases hinner : innerScan key val (s0 :: srest) with
        | error e => rw [hinner] at h; exact absurd h (by simp)
        | ok o =>
          rw [hinner] at h
          cases o with
          | none => exact absurd h (by simp)
          | some ns =>
            dsimp only at h
            injection h with h
            subst h
            simp only [scanCands, hsplit]
            rw [hinner]
            simp [hcond]
      · rw [if_neg hcond] at h; exact absurd h (by simp)

/-- Part of amended C4: a legacy-syntax candidate whose first word is the
key stops the scan at once — the remaining candidates and the accumulator
are ignored, so for the legacy syntax the first match wins. -/
theorem scanCands_legacy_first (key val : List Char) (c : Instr) (rest : List Instr)
    (acc : Option Found) (s0 w0 w1 : List Char) (srest wrest : List (List Char))
    (hsplit : shlexSplit c.value = .ok (s0 :: srest))
    (hnoeq : (s0.any fun ch => ch == '=') = false)
    (hwords : splitNone1 (stripQuotes c.value) = w0 :: w1 :: wrest)
    (hkey : w0 = key) :
    scanCands key val (c :: rest) acc =
      .ok (some ⟨legacyContent w0 val, c.startline, c.endline⟩) := by
  subst hkey
  simp only [scanCands, hsplit]
  rw [hwords]
  simp [hnoeq]

/-- Part of amended C4: when every candidate is a successful quoted-syntax
match, the scan returns the record of the last candidate. -/
theorem scanCands_all_quoted (key val : List Char) :
    ∀ (cands : List Instr) (acc : Option Found) (c' : Instr),
    cands.getLast? = some c' →
    (∀ c ∈ cands, (quotedResult key val c).isSome) →
    scanCands key val cands acc = .ok (quotedResult key val c') := by
  intro cands
  induction cands with
  | nil => intro acc c' h _; simp at h
  | cons c rest ih =>
    intro acc c' hlast hall
    have hc : (quotedResult key val c).isSome := hall c (List.mem_cons_self _ _)
    obtain ⟨f, hf⟩ := Option.isSome_iff_exists.mp hc
    rw [scanCands_quoted_step key val c rest acc f hf]
    cases rest with
    | nil =>
      simp only [List.getLast?_singleton, Option.some.injEq] at hlast
      subst hlast
      rw [show scanCands key val [] (some f) = .ok (some f) from rfl, hf]
    | cons c2 rest2 =>
      rw [List.getLast?_cons_cons] at hlast
      exact ih (some f) c' hlast (fun x hx => hall x (List.mem_cons_of_mem c hx))

/-- C4 counterexample: the claim says only the *first* LABEL instruction
containing the key is rewritten, for both syntaxes.  With two quoted-syntax
labels both binding `a`, the code rewrites the *second* one: the inner
`break` leaves only the token loop, so the scan keeps going and the later
candidate overwrites the recorded match.  The first line is left unchanged. -/
theorem c4_not_first_counterexample :
    modifyInstructionLabel ["LABEL a=1\n".toList, "LABEL a=2\n".toList]
        ("a".toList) ("x".toList) =
      .ok ["LABEL a=1\n".toList, "LABEL a=x\n".toList] ∧
    ["LABEL a=1\n".toList, "LABEL a=x\n".toList].head? = some ("LABEL a=1\n".toList) :=
  ⟨by decide, by decide⟩

/-- C4 amended: the single-label update rewrites the line span of exactly
one LABEL instruction, but which one depends on the syntax: a legacy
space-separated match stops the scan, so the first legacy match wins
(first conjunct, for any continuation of the candidate list); a quoted
key=value match is recorded without stopping the scan, so among quoted
matches the last one wins (second conjunct); and the line span spliced is
the one recorded for the selected candidate (third conjunct). -/
theorem c4_label_update_selection :
    (∀ (key val : List Char) (c : Instr) (rest : List Instr) (acc : Option Found)
        (s0 w0 w1 : List Char) (srest wrest : List (List Char)),
      shlexSplit c.value = .ok (s0 :: srest) →
      (s0.any fun ch => ch == '=') = false →
      splitNone1 (stripQuotes c.value) = w0 :: w1 :: wrest → w0 = key →
      scanCands key val (c :: rest) acc =
        .ok (some ⟨legacyContent w0 val, c.startline, c.endline⟩)) ∧
    (∀ (key val : List Char) (cands : List Instr) (acc : Option Found) (c' : Instr),
      cands.getLast? = some c' →
      (∀ c ∈ cands, (quotedResult key val c).isSome) →
      scanCands key val cands acc = .ok (quotedResult key val c')) ∧
    (∀ (lines : List (List Char)) (key val : List Char)
        (d : List (List Char × List Char)) (f : Found),
      labelsModel lines = .ok d → (dictGet d key).isSome = true →
      scanCands key val (labelCands lines) none = .ok (some f) →
      f.content ≠ [] → f.startline ≠ 0 → f.endline ≠ 0 →
      modifyInstructionLabel lines key val =
        .ok (spliceReplace lines f.startline f.endline f.content)) := by
  refine ⟨scanCands_legacy_first, scanCands_all_quoted, ?_⟩
  intro lines key val d f hd hk hscan h1 h2 h3
  unfold modifyInstructionLabel
  rw [hd]
  dsimp only
  rw [if_pos hk, hscan]
  simp [h1, h2, h3, List.isEmpty_iff]

/-- Witness for amended C4: a legacy match at candidate 1 wins despite a
later quoted match; two quoted matches select the last; and the selected
span is the one spliced. -/
theorem c4_label_update_selection_witness :
    scanCands ("a".toList) ("x".toList)
      [⟨"LABEL".toList, 1, 1, "LABEL a b\n".toList, "a b".toList⟩,
       ⟨"LABEL".toList, 2, 2, "LABEL a=9\n".toList, "a=9".toList⟩] none =
      .ok (some ⟨legacyContent ("a".toList) ("x".toList), 1, 1⟩) ∧
    scanCands ("a".toList) ("x".toList)
      [⟨"LABEL".toList, 0, 0, "LABEL a=1\n".toList, "a=1".toList⟩,
       ⟨"LABEL".toList, 1, 1, "LABEL a=2\n".toList, "a=2".toList⟩] none =
      .ok (quotedResult ("a".toList) ("x".toList)
        ⟨"LABEL".toList, 1, 1, "LABEL a=2\n".toList, "a=2".toList⟩) ∧
    modifyInstructionLabel ["LABEL a=1\n".toList, "LABEL a=2\n".toList]
        ("a".toList) ("x".toList) =
      .ok (spliceReplace ["LABEL a=1\n".toList, "LABEL a=2\n".toList] 1 1
        ("LABEL a=x\n".toList)) := by
  refine ⟨?_, ?_, ?_⟩
  · exact c4_label_update_selection.1 ("a".toList) ("x".toList)
      ⟨"LABEL".toList, 1, 1, "LABEL a b\n".toList, "a b".toList⟩
      [⟨"LABEL".toList, 2, 2, "LABEL a=9\n".toList, "a=9".toList⟩] none
      ("a".toList) ("a".toList) ("b".toList) ["b".toList] []
      (by decide) (by decide) (by decide) (by decide)
  · exact c4_label_update_selection.2.1 ("a".toList) ("x".toList)
      [⟨"LABEL".toList, 0, 0, "LABEL a=1\n".toList, "a=1".toList⟩,
       ⟨"LABEL".toList, 1, 1, "LABEL a=2\n".toList, "a=2".toList⟩] none
      ⟨"LABEL".toList, 1, 1, "LABEL a=2\n".toList, "a=2".toList⟩
      (by decide) (by decide)
  · exact c4_label_update_selection.2.2 ["LABEL a=1\n".toList, "LABEL a=2\n".toList]
      ("a".toList) ("x".toList) [("a".toList, "2".toList)]
      ⟨"LABEL a=x\n".toList, 1, 1⟩
      (by decide) (by decide) (by decide) (by decide) (by decide) (by decide)

/-- C9 counterexample: the claim states that *every* file whose first
key-containing LABEL instruction starts at line 0 makes the update raise an
assertion failure.  Here the first LABEL containing `a` starts at line 0,
yet the scan selects the later quoted match on line 1 (truthy indices), the
assertion passes and a write happens. -/
theorem c9_first_at_zero_counterexample :
    ((structure' ["LABEL a=1 b=2\n".toList, "LABEL a=3\n".toList]).head?.map
        Instr.startline = some 0) ∧
    modifyInstructionLabel ["LABEL a=1 b=2\n".toList, "LABEL a=3\n".toList]
        ("a".toList) ("x".toList) =
      .ok ["LABEL a=1 b=2\n".toList, "LABEL a=x\n".toList] :=
  ⟨by decide, by decide⟩

/-- C9 amended: whenever the candidate *selected by the scan* starts at
line index 0 (in particular whenever the only LABEL instruction containing
the key is the first line of the file), the `assert content and startline
and endline` tests the truthiness of the indices, index 0 is falsy, and the
update raises `AssertionError` without writing anything: the error carries
the untouched line sequence. -/
theorem c9_line_zero_assert (lines : List (List Char)) (key val : List Char)
    (d : List (List Char × List Char)) (f : Found)
    (hd : labelsModel lines = .ok d) (hk : (dictGet d key).isSome = true)
    (hscan : scanCands key val (labelCands lines) none = .ok (some f))
    (h0 : f.startline = 0) :
    modifyInstructionLabel lines key val = .error (.assertError, lines) := by
  unfold modifyInstructionLabel
  rw [hd]
  dsimp only
  rw [if_pos hk, hscan]
  simp [h0]

/-- Witness for amended C9: a single quoted label on line 0; the key is
present, the replacement line is built, and the update still fails with
`AssertionError`, writing nothing. -/
theorem c9_line_zero_assert_witness :
    modifyInstructionLabel ["LABEL a=1\n".toList] ("a".toList) ("2".toList) =
      .error (.assertError, ["LABEL a=1\n".toList]) :=
  c9_line_zero_assert ["LABEL a=1\n".toList] ("a".toList) ("2".toList)
    [("a".toList, "1".toList)] ⟨"LABEL a=2\n".toList, 0, 0⟩
    (by decide) (by decide) (by decide) (by decide)

/-- Keeping with no instruction list keeps everything. -/
theorem keepLines_nil_insns (p : Instr → Bool) :
    ∀ (k : Nat) (ls : List (List Char)), keepLines p [] k ls = ls := by
  intro k ls
  induction ls generalizing k with
  | nil => rfl
  | cons l t ih => simp [keepLines, coveredBy, ih]

/-- A head instruction failing the filter never covers anything. -/
theorem keepLines_unmatched_head (p : Instr → Bool) (i : Instr) (rest : List Instr)
    (hp : p i = false) :
    ∀ (k : Nat) (ls : List (List Char)),
    keepLines p (i :: rest) k ls = keepLines p rest k ls := by
  intro k ls
  induction ls generalizing k with
  | nil => rfl
  | cons l t ih =>
    have hcov : coveredBy p (i :: rest) k = coveredBy p rest k := by
      simp [coveredBy, List.any_cons, hp]
    simp only [keepLines, hcov, ih]

/-- A head instruction whose span ends before index `k` covers nothing from
`k` on. -/
theorem keepLines_head_before (p : Instr → Bool) (i : Instr) (rest : List Instr) :
    ∀ (k : Nat) (ls : List (List Char)), i.endline < k →
    keepLines p (i :: rest) k ls = keepLines p rest k ls := by
  intro k ls
  induction ls generalizing k with
  | nil => intro _; rfl
  | cons l t ih =>
    intro hlt
    have hcov : coveredBy p (i :: rest) k = coveredBy p rest k := by
      simp only [coveredBy, List.any_cons]
      have hdec : decide (k ≤ i.endline) = false := by
        simp only [decide_eq_false_iff_not]
        omega
      simp [hdec]
    simp only [keepLines]
    rw [hcov, ih (k+1) (by omega)]

/-- When no filtered span starts before `k + m`, the first `m` lines are
kept unconditionally. -/
theorem keepLines_split (p : Instr → Bool) (insns : List Instr) :
    ∀ (m k : Nat) (ls : List (List Char)),
    (∀ i ∈ insns, p i = true → k + m ≤ i.startline) →
    keepLines p insns k ls = ls.take m ++ keepLines p insns (k + m) (ls.drop m) := by
  intro m
  induction m with
  | zero => intro k ls _; simp
  | succ m ih =>
    intro k ls h
    cases ls with
    | nil => simp [keepLines]
    | cons l t =>
      have hcov : coveredBy p insns k = false := by
        refine List.any_eq_false.mpr ?_
        intro i hi
        cases hp : p i with
        | false => simp [hp]
        | true =>
          have hs := h i hi hp
          simp only [hp, Bool.true_and, Bool.and_eq_true, decide_eq_true_eq, not_and]
          omega
      simp only [keepLines, hcov, Bool.false_eq_true, if_false]
      rw [ih (k+1) t (fun i hi hp => by have := h i hi hp; omega)]
      rw [List.take_succ_cons, List.drop_succ_cons,
        show k + 1 + m = k + (m+1) from by omega, List.cons_append]

/-- When every index in `[k, k+m)` is covered, those lines are all removed. -/
theorem keepLines_covered_drop (p : Instr → Bool) (insns : List Instr) :
    ∀ (m k : Nat) (ls : List (List Char)),
    (∀ idx, k ≤ idx → idx < k + m → coveredBy p insns idx = true) →
    keepLines p insns k ls = keepLines p insns (k + m) (ls.drop m) := by
  intro m
  induction m with
  | zero => intro k ls _; simp
  | succ m ih =>
    intro k ls h
    cases ls with
    | nil => cases m <;> simp [keepLines]
    | cons l t =>
      have hcov : coveredBy p insns k = true := h k (le_refl k) (by omega)
      simp only [keepLines, hcov, if_true]
      rw [ih (k+1) t (fun idx h1 h2 => h idx (by omega) (by omega))]
      rw [List.drop_succ_cons, show k + 1 + m = k + (m+1) from by omega]

/-- Deleting the filtered spans from the last instruction to the first is
exactly the positional filtering by span membership: reverse order keeps
every earlier index valid while later spans are spliced out first. -/
theorem foldr_delSlice_eq_keepLines (p : Instr → Bool) :
    ∀ (insns : List Instr) (ls : List (List Char)),
    (∀ i ∈ insns, i.startline ≤ i.endline ∧ i.endline < ls.length) →
    List.Pairwise (fun a b => a.endline < b.startline) insns →
    insns.foldr (fun i acc =>
        if p i then delSlice acc i.startline (i.endline + 1) else acc) ls =
      keepLines p insns 0 ls := by
  intro insns
  induction insns with
  | nil => intro ls _ _; exact (keepLines_nil_insns p 0 ls).symm
  | cons i rest ih =>
    intro ls hb hpw
    obtain ⟨hpair, hpw'⟩ := List.pairwise_cons.mp hpw
    obtain ⟨hse, hlen⟩ := hb i (List.mem_cons_self _ _)
    simp only [List.foldr_cons]
    rw [ih ls (fun j hj => hb j (List.mem_cons_of_mem i hj)) hpw']
    cases hp : p i with
    | false =>
      rw [if_neg Bool.false_ne_true]
      exact (keepLines_unmatched_head p i rest hp 0 ls).symm
    | true =>
      rw [if_pos rfl]
      rw [keepLines_split p rest (i.endline + 1) 0 ls
        (fun j hj _ => by have := hpair j hj; omega)]
      have hlenA : (ls.take (i.endline + 1)).length = i.endline + 1 := by
        rw [List.length_take]
        omega
      have hdel : delSlice
          (ls.take (i.endline + 1) ++
            keepLines p rest (0 + (i.endline + 1)) (ls.drop (i.endline + 1)))
          i.startline (i.endline + 1) =
          ls.take i.startline ++
            keepLines p rest (0 + (i.endline + 1)) (ls.drop (i.endline + 1)) := by
        unfold delSlice
        rw [show max i.startline (i.endline + 1) = i.endline + 1 from by omega]
        rw [List.take_append_of_le_length (by omega)]
        rw [List.take_take, show min i.startline (i.endline + 1) = i.startline from by omega]
        have hdl := List.drop_left (ls.take (i.endline + 1))
          (keepLines p rest (0 + (i.endline + 1)) (ls.drop (i.endline + 1)))
        rw [hlenA] at hdl
        rw [hdl]
      rw [hdel]
      rw [keepLines_split p (i :: rest) i.startline 0 ls ?hsplit2]
      case hsplit2 =>
        intro j hj _
        rcases List.mem_cons.mp hj with h | h
        · subst h; omega
        · have := hpair j h; omega
      rw [keepLines_covered_drop p (i :: rest) (i.endline + 1 - i.startline)
        (0 + i.startline) (ls.drop i.startline) ?hcovered]
      case hcovered =>
        intro idx h1 h2
        simp only [coveredBy, List.any_cons, hp, Bool.true_and, Bool.or_eq_true,
          Bool.and_eq_true, decide_eq_true_eq]
        left
        omega
      rw [List.drop_drop]
      rw [keepLines_head_before p i rest _ _ (by omega)]
      rw [show i.startline + (i.endline + 1 - i.startline) = i.endline + 1 from by omega,
        show 0 + i.startline + (i.endline + 1 - i.startline) = 0 + (i.endline + 1) from by omega]

/-- The pair-state fold of `_delete_instructions` splits into the line fold
and the deleted flag, which records whether any instruction matched. -/
theorem deleteFold_pair (p : Instr → Bool) :
    ∀ (insns : List Instr) (ls : List (List Char)) (b : Bool),
    insns.foldr (fun i st =>
        if p i then (delSlice st.1 i.startline (i.endline + 1), true) else st) (ls, b) =
      (insns.foldr (fun i acc =>
        if p i then delSlice acc i.startline (i.endline + 1) else acc) ls,
       b || insns.any p) := by
  intro insns
  induction insns with
  | nil => intro ls b; simp
  | cons i rest ih =>
    intro ls b
    simp only [List.foldr_cons, ih]
    cases hp : p i with
    | false =>
      rw [if_neg Bool.false_ne_true, if_neg Bool.false_ne_true]
      simp [List.any_cons, hp]
    | true =>
      rw [if_pos rfl, if_pos rfl]
      simp [List.any_cons, hp]

/-- C8 counterexample: the claim says an instruction is removed only when
its value equals the given filter.  The code tests the filter for Python
truthiness first, so the *empty* value filter is ignored: the `RUN`
instruction with value `x` is deleted (and a write happens) even though its
value differs from the filter, where the claim requires the line sequence
untouched and no write. -/
theorem c8_empty_filter_counterexample :
    deleteInstructions ["RUN x\n".toList] ("RUN".toList) (some []) = ([], true) ∧
    ¬ deleteInstructions ["RUN x\n".toList] ("RUN".toList) (some []) =
        (["RUN x\n".toList], false) :=
  ⟨by decide, by decide⟩

/-- C8 amended: `_delete_instructions` scans the derived structure in
reverse line order and removes the line span of every instruction matching
the given name and the optional value filter, a non-empty filter requiring
an exact value match while an empty one is ignored (Python truthiness).
First conjunct: the result is exactly the positional filtering of the lines
by matched-span membership, with the write flag recording whether anything
matched.  Second conjunct: if no instruction matched, the line sequence is
returned untouched and no write occurs. -/
theorem c8_delete_characterization :
    (∀ (lines : List (List Char)) (instruction : List Char)
        (value : Option (List Char)),
      deleteInstructions lines instruction value =
        (keepLines (modifyMatch instruction value) (structure' lines) 0 lines,
         (structure' lines).any (modifyMatch instruction value))) ∧
    (∀ (lines : List (List Char)) (instruction : List Char)
        (value : Option (List Char)),
      ((structure' lines).all fun i => !(modifyMatch instruction value i)) = true →
      deleteInstructions lines instruction value = (lines, false)) := by
  have hmain : ∀ (lines : List (List Char)) (instruction : List Char)
      (value : Option (List Char)),
      deleteInstructions lines instruction value =
        (keepLines (modifyMatch instruction value) (structure' lines) 0 lines,
         (structure' lines).any (modifyMatch instruction value)) := by
    intro lines instruction value
    unfold deleteInstructions
    rw [List.foldl_reverse]
    rw [deleteFold_pair (modifyMatch instruction value) (structure' lines) lines false]
    rw [foldr_delSlice_eq_keepLines (modifyMatch instruction value) (structure' lines)
      lines (structure_spans lines) (structure_pairwise lines)]
    rw [Bool.false_or]
  refine ⟨hmain, ?_⟩
  intro lines instruction value hall
  rw [hmain lines instruction value]
  have hforall : ∀ i ∈ structure' lines, modifyMatch instruction value i = false := by
    intro i hi
    have := List.all_eq_true.mp hall i hi
    simpa using this
  have hany : (structure' lines).any (modifyMatch instruction value) = false :=
    List.any_eq_false.mpr (fun i hi => by simp [hforall i hi])
  rw [hany]
  rw [keepLines_split (modifyMatch instruction value) (structure' lines)
    lines.length 0 lines (fun i hi hp => absurd hp (by simp [hforall i hi]))]
  rw [List.take_length, List.drop_length]
  rw [show keepLines (modifyMatch instruction value) (structure' lines)
      (0 + lines.length) [] = [] from rfl]
  rw [List.append_nil]

/-- Witness for amended C8: a file whose only instruction does not match —
the lines come back untouched and the write flag stays clear. -/
theorem c8_delete_characterization_witness :
    deleteInstructions ["FROM f\n".toList] ("RUN".toList) none =
      (["FROM f\n".toList], false) :=
  c8_delete_characterization.2 ["FROM f\n".toList] ("RUN".toList) none (by decide)

end DockerfileParse
